import Mathlib

/-!
Verification of the Latin-text normalization utilities in
`posts/words-clouds/eptools.py` (functions `preprocess` and
`remove_diacriticals`).

Strings are embedded as `List Char`.  The host-environment collaborators
(Python's `html.unescape`, `str.lower`, the CLTK `JVReplacer`, and the
`unicodedata` NFD/NFC normalizer together with its combining-class data)
are modelled as executable Lean functions that are faithful to the real
collaborators on a representative fragment of Unicode: the modelled
entity table, case table and canonical (de)composition table are finite,
and every character outside them is handled exactly as Python handles a
character with no entry (identity / class 0).  All pipeline code proper
(`preprocess`, `remove_diacriticals`, and each of their steps) is
translated directly from the source.
-/

namespace EpTools

/-- Options record of `preprocess`, one field per keyword parameter of the
Python function, with the source's defaults recorded in `defaultOpts`. -/
structure Opts where
  lower : Bool
  normalize : Bool
  punctuation : Bool
  numbers : Bool
  unhyphenate : Bool
  remove_lines : Bool
  remove_spaces : Bool
  entities : Bool
  diacriticals : Bool
  fill : List Char

/-- Default option values, from the `def preprocess(...)` signature. -/
def defaultOpts : Opts :=
  { lower := true, normalize := true, punctuation := false, numbers := false,
    unhyphenate := false, remove_lines := false, remove_spaces := false,
    entities := false, diacriticals := true, fill := [' '] }

/-- Whitespace for Python's `str.split()` / `str.strip()` (ASCII fragment). -/
def pyIsSpace (c : Char) : Bool :=
  c = ' ' || c = '\t' || c = '\n' || c = '\r' || c = '\x0b' || c = '\x0c'

/-- Whitespace for the regex class `\s` (same ASCII fragment). -/
def isRegexSpace (c : Char) : Bool := pyIsSpace c

/-- The character class `[-»—]` of the unhyphenation regex. -/
def isHyph (c : Char) : Bool := c = '-' || c = '»' || c = '—'

/-- The ten ASCII digits, from the literal `"0123456789"` in the source. -/
def digitChars : List Char := ['0', '1', '2', '3', '4', '5', '6', '7', '8', '9']

/-- The `punctuation` string literal of the source (the Python escape
`\]` denotes a backslash followed by a right bracket). -/
def puncChars : List Char :=
  [Char.ofNat 34, '#', '$', '%', '&', Char.ofNat 39, '(', ')', '*', '+', ',',
   '/', ':', ';', '<', '=', '>', '@', '[', '\\', ']', '^', '_', Char.ofNat 96,
   '{', '|', '}', '~', '.', '?', '!', '«', '»', '—', '“', '-', '”']

/-- The `misc` string literal of the source (before `misc += punctuation`). -/
def miscChars : List Char :=
  ['¡', '£', '¤', '¥', '¦', '§', '¨', '©', '¯', '°', '±', '²', '³', '´', 'µ',
   '¶', '·', '¸', '¹', 'º', '¼', '½', '¾', '¿', '÷', '·', '–', '‘', '’', '†',
   '•', 'ↄ', '∞', '⏑', '〈', '〉', '（', '）']

/-- `misc += punctuation`: the full key set of the punctuation-removal
translation table. -/
def pmChars : List Char := miscChars ++ puncChars

/-- Modelled from the spec: the host case-folding collaborator
(`str.lower`), as a per-character table over the ASCII uppercase letters
and a fragment of precomposed Latin-1 uppercase letters; characters
without an entry are returned unchanged. -/
def lowerTable : List (Char × Char) :=
  [('A', 'a'), ('B', 'b'), ('C', 'c'), ('D', 'd'), ('E', 'e'), ('F', 'f'),
   ('G', 'g'), ('H', 'h'), ('I', 'i'), ('J', 'j'), ('K', 'k'), ('L', 'l'),
   ('M', 'm'), ('N', 'n'), ('O', 'o'), ('P', 'p'), ('Q', 'q'), ('R', 'r'),
   ('S', 's'), ('T', 't'), ('U', 'u'), ('V', 'v'), ('W', 'w'), ('X', 'x'),
   ('Y', 'y'), ('Z', 'z'), ('À', 'à'), ('È', 'è'), ('É', 'é'), ('Ì', 'ì'),
   ('Ò', 'ò'), ('Ù', 'ù'), ('Ü', 'ü'), ('Ñ', 'ñ'), ('Ç', 'ç')]

/-- Per-character case folding: table lookup, identity outside it. -/
def pylower (c : Char) : Char :=
  ((lowerTable.find? (fun e => e.1 = c)).map (fun e => e.2)).getD c

/-- Modelled from the spec: the external CLTK `JVReplacer` collaborator,
a fixed context-free substitution `j→i`, `v→u` and their uppercase
variants (spec §4.2); identity on every other character. -/
def jv (c : Char) : Char :=
  if c = 'j' then 'i'
  else if c = 'v' then 'u'
  else if c = 'J' then 'I'
  else if c = 'V' then 'U'
  else c

/-- Modelled from the spec: the canonical decomposition data of the
`unicodedata` collaborator, as a finite fragment.  Each entry is
`(precomposed, base, combining mark)` and matches the real Unicode
canonical decomposition of the precomposed character. -/
def decompTable : List (Char × Char × Char) :=
  [('à', 'a', '̀'), ('á', 'a', '́'), ('è', 'e', '̀'),
   ('é', 'e', '́'), ('ì', 'i', '̀'), ('ò', 'o', '̀'),
   ('ù', 'u', '̀'), ('ü', 'u', '̈'), ('ñ', 'n', '̃'),
   ('ç', 'c', '̧'), ('ā', 'a', '̄'), ('ē', 'e', '̄')]

/-- Modelled from the spec: `unicodedata.combining` — the canonical
combining class, nonzero exactly on combining characters.  The values on
the marks of `decompTable` are the real Unicode classes. -/
def combiningClass (c : Char) : Nat :=
  if c = '̀' || c = '́' || c = '̂' || c = '̃' ||
     c = '̄' || c = '̈' then 230
  else if c = '̧' then 202
  else 0

/-- Modelled from the spec: the singleton canonical decompositions of the
`unicodedata` collaborator — code points whose canonical decomposition is
a single other code point, which NFD and NFC therefore replace and never
recompose.  Each entry matches the real Unicode data: U+0387 GREEK ANO
TELEIA → U+00B7, U+037E GREEK QUESTION MARK → U+003B, U+1FEF GREEK VARIA
→ U+0060, U+1FFD GREEK OXIA → U+00B4, U+2329/U+232A angle brackets →
U+3008/U+3009. -/
def singletonNFC : List (Char × Char) :=
  [('\u0387', '·'), ('\u037E', ';'), ('\u1FEF', Char.ofNat 96),
   ('\u1FFD', '´'), ('\u2329', '〈'), ('\u232A', '〉')]

/-- Apply the singleton canonical mapping to one character (identity
outside the table). -/
def nfcChar (c : Char) : Char :=
  ((singletonNFC.find? (fun e => e.1 = c)).map (fun e => e.2)).getD c

/-- Canonical decomposition of one character: a base/mark pair from the
pair table, the image of a singleton decomposition, or the character
itself. -/
def nfdChar (c : Char) : List Char :=
  match decompTable.find? (fun e => e.1 = c) with
  | some e => [e.2.1, e.2.2]
  | none => [nfcChar c]

/-- Modelled from the spec: `unicodedata.normalize("NFD", ·)` on the
fragment — characterwise canonical decomposition. -/
def nfd (t : List Char) : List Char := t.flatMap nfdChar

/-- Primitive composition of a base character with a combining mark,
read off the same decomposition table (none outside the fragment). -/
def compose (a b : Char) : Option Char :=
  (decompTable.find? (fun e => e.2.1 = a && e.2.2 = b)).map (fun e => e.1)

/-- The precomposed characters the modelled composition can produce. -/
def composedChars : List Char := decompTable.map (fun e => e.1)

/-- The canonical-composition pass: recompose each adjacent base/mark
pair. -/
def nfcCompose : List Char → List Char
  | [] => []
  | [c] => [c]
  | a :: b :: rest =>
    match compose a b with
    | some e => e :: nfcCompose rest
    | none => a :: nfcCompose (b :: rest)

/-- Modelled from the spec: `unicodedata.normalize("NFC", ·)` on the
fragment — singleton canonical decompositions (which never recompose)
followed by recomposition of adjacent base/mark pairs. -/
def nfc (l : List Char) : List Char := nfcCompose (l.map nfcChar)

/-- The key set of the source's `combining_character_table`:
`unicodedata.combining(chr(c))` is truthy. -/
def combiningTable (c : Char) : Bool := combiningClass c != 0

/-- `str.translate` with a table mapping each key character to `None`:
delete the keys. -/
def translateDelete (tbl : Char → Bool) (l : List Char) : List Char :=
  l.filter (fun c => !tbl c)

/-- `remove_diacriticals` from the source: NFD-normalize, then translate
through the combining-character deletion table. -/
def remove_diacriticals (t : List Char) : List Char :=
  translateDelete combiningTable (nfd t)

/-- `str.translate` with a table mapping each key character to the string
`fill`: replace the keys, keep everything else. -/
def translateFill (tbl : Char → Bool) (fill : List Char) (l : List Char) :
    List Char :=
  l.flatMap (fun c => if tbl c then fill else [c])

/-- Modelled from the spec: the host HTML-entity decoder collaborator
(`html.unescape`), over a representative entity table; an ampersand that
starts no recognized entity, and all other text, is copied unchanged. -/
def unescape : List Char → List Char
  | [] => []
  | c :: rest =>
    if c = '&' then
      match rest with
      | 'a' :: 'm' :: 'p' :: ';' :: r => '&' :: unescape r
      | '#' :: '3' :: '8' :: ';' :: r => '&' :: unescape r
      | '#' :: '3' :: '9' :: ';' :: r => Char.ofNat 39 :: unescape r
      | 'l' :: 't' :: ';' :: r => '<' :: unescape r
      | 'g' :: 't' :: ';' :: r => '>' :: unescape r
      | 'q' :: 'u' :: 'o' :: 't' :: ';' :: r => Char.ofNat 34 :: unescape r
      | r => c :: unescape r
    else c :: unescape rest

/-- The unhyphenation pass `re.sub(r"[-»—]\s?\n", "", text)`: a scan that
deletes each leftmost match (hyphen-class character, optional single
whitespace character, newline) and resumes after it. -/
def stepUnhyphenate (l : List Char) : List Char :=
  match l with
  | [] => []
  | c :: rest =>
    if isHyph c then
      match rest with
      | w :: '\n' :: r2 =>
        if isRegexSpace w then stepUnhyphenate r2
        else c :: stepUnhyphenate (w :: '\n' :: r2)
      | '\n' :: r2 => stepUnhyphenate r2
      | r => c :: stepUnhyphenate r
    else c :: stepUnhyphenate rest
termination_by l.length
decreasing_by all_goals simp only [List.length_cons]; omega

/-- `text.split("\n")`: split at every newline, keeping empty segments. -/
def splitOnNl : List Char → List (List Char)
  | [] => [[]]
  | '\n' :: rest => [] :: splitOnNl rest
  | c :: rest =>
    match splitOnNl rest with
    | [] => [[c]]
    | s :: ss => (c :: s) :: ss

/-- `sep.join(segments)`. -/
def joinSep (sep : List Char) : List (List Char) → List Char
  | [] => []
  | [s] => s
  | s :: ss => s ++ sep ++ joinSep sep ss

/-- The line-joining pass `" ".join(text.split("\n"))`. -/
def stepRemoveLines (t : List Char) : List Char :=
  joinSep [' '] (splitOnNl t)

/-- `text.split()`: maximal non-whitespace runs, whitespace discarded. -/
def pySplitWs : List Char → List (List Char)
  | [] => []
  | [c] => if pyIsSpace c then [] else [[c]]
  | c :: d :: rest =>
    if pyIsSpace c then pySplitWs (d :: rest)
    else
      match pyIsSpace d, pySplitWs (d :: rest) with
      | true, gs => [c] :: gs
      | false, [] => [[c]]
      | false, g :: gs => (c :: g) :: gs

/-- The unconditional `re.sub(" +", " ", text)`: collapse each run of
ASCII spaces into one space (of two adjacent spaces, only the second is
kept, which collapses each maximal run to a single space). -/
def collapseSpaces : List Char → List Char
  | [] => []
  | [c] => [c]
  | a :: b :: rest =>
    if a = ' ' ∧ b = ' ' then collapseSpaces (b :: rest)
    else a :: collapseSpaces (b :: rest)

/-- Strip trailing Python whitespace. -/
def dropTrail (l : List Char) : List Char :=
  (l.reverse.dropWhile pyIsSpace).reverse

/-- `text.strip()`: remove leading and trailing whitespace. -/
def pyStrip (l : List Char) : List Char :=
  dropTrail (l.dropWhile pyIsSpace)

/-- `preprocess` from the source, one `let` per statement, in source
order. -/
def preprocess (text : List Char) (o : Opts) : List Char :=
  let t1 := if o.entities then text else unescape text
  let t2 := if o.unhyphenate then stepUnhyphenate t1 else t1
  let t3 := if o.lower then t2.map pylower else t2
  let t4 := if o.normalize then t3.map jv else t3
  let t5 := if o.punctuation then t4
            else translateFill (fun c => pmChars.contains c) o.fill t4
  let t6 := if o.numbers then t5
            else translateFill (fun c => digitChars.contains c) o.fill t5
  let t7 := if o.remove_lines then stepRemoveLines t6 else t6
  let t8 := if o.remove_spaces then joinSep o.fill (pySplitWs t7) else t7
  let t9 := if o.diacriticals then t8 else remove_diacriticals t8
  let t10 := collapseSpaces t9
  let t11 := nfc t10
  pyStrip t11

/-- The first nine (conditional) statements of `preprocess`, before the
unconditional space collapse, NFC pass and trim. -/
def preCore (text : List Char) (o : Opts) : List Char :=
  let t1 := if o.entities then text else unescape text
  let t2 := if o.unhyphenate then stepUnhyphenate t1 else t1
  let t3 := if o.lower then t2.map pylower else t2
  let t4 := if o.normalize then t3.map jv else t3
  let t5 := if o.punctuation then t4
            else translateFill (fun c => pmChars.contains c) o.fill t4
  let t6 := if o.numbers then t5
            else translateFill (fun c => digitChars.contains c) o.fill t5
  let t7 := if o.remove_lines then stepRemoveLines t6 else t6
  let t8 := if o.remove_spaces then joinSep o.fill (pySplitWs t7) else t7
  if o.diacriticals then t8 else remove_diacriticals t8

/-! Spec-side step functions, one per numbered step of §4.3 of the spec,
written from the spec's wording. -/

/-- Spec step 1: entity decoding, when `entities` is false. -/
def stepEntity (o : Opts) (t : List Char) : List Char :=
  if o.entities then t else unescape t

/-- Spec step 2: unhyphenation, when `unhyphenate` is true. -/
def stepUnhyph (o : Opts) (t : List Char) : List Char :=
  if o.unhyphenate then stepUnhyphenate t else t

/-- Spec step 3: case folding, when `lower` is true. -/
def stepLower (o : Opts) (t : List Char) : List Char :=
  if o.lower then t.map pylower else t

/-- Spec step 4: spelling normalization, when `normalize` is true. -/
def stepSpelling (o : Opts) (t : List Char) : List Char :=
  if o.normalize then t.map jv else t

/-- Spec step 5: punctuation removal, when `punctuation` is false. -/
def stepPunct (o : Opts) (t : List Char) : List Char :=
  if o.punctuation then t
  else translateFill (fun c => pmChars.contains c) o.fill t

/-- Spec step 6: number removal, when `numbers` is false. -/
def stepNumbers (o : Opts) (t : List Char) : List Char :=
  if o.numbers then t
  else translateFill (fun c => digitChars.contains c) o.fill t

/-- Spec step 7: line joining, when `remove_lines` is true. -/
def stepLines (o : Opts) (t : List Char) : List Char :=
  if o.remove_lines then stepRemoveLines t else t

/-- Spec step 8: space collapsing with `fill`, when `remove_spaces` is
true. -/
def stepSpaces (o : Opts) (t : List Char) : List Char :=
  if o.remove_spaces then joinSep o.fill (pySplitWs t) else t

/-- Spec step 9: diacritic removal, when `diacriticals` is false. -/
def stepDiacritics (o : Opts) (t : List Char) : List Char :=
  if o.diacriticals then t else remove_diacriticals t

/-- Spec step 10: unconditional whitespace collapse. -/
def stepCollapse (o : Opts) (t : List Char) : List Char := collapseSpaces t

/-- Spec step 11: unconditional Unicode recomposition. -/
def stepNFC (o : Opts) (t : List Char) : List Char := nfc t

/-- Spec step 12: unconditional trim. -/
def stepTrim (o : Opts) (t : List Char) : List Char := pyStrip t

/-- The spec's twelve-step pipeline, in the spec's fixed order. -/
def specPipeline (o : Opts) : List (List Char → List Char) :=
  [stepEntity o, stepUnhyph o, stepLower o, stepSpelling o, stepPunct o,
   stepNumbers o, stepLines o, stepSpaces o, stepDiacritics o,
   stepCollapse o, stepNFC o, stepTrim o]

/-- Spec-side notion of a combining mark, following the spec's glossary:
a code point that combines with the preceding base character, i.e. one of
nonzero canonical combining class. -/
def isCombiningMark (c : Char) : Bool := combiningClass c != 0

/-- The diacritic stripper as the spec §4.1 words it: decompose to NFD,
then delete every combining mark, leaving base letters only. -/
def specStripDiacritics (t : List Char) : List Char :=
  (nfd t).filter (fun c => !isCombiningMark c)

/-- A character that every pass of the default pipeline leaves alone:
fixed by case folding, the spelling replacer and the NFC singleton
mapping, and in neither removal table. -/
def cleanChar (c : Char) : Bool :=
  (pylower c == c) && (jv c == c) && (nfcChar c == c) &&
    !(pmChars.contains c) && !(digitChars.contains c)

/-- No two adjacent ASCII spaces. -/
def noDoubleSpaceB : List Char → Bool
  | [] => true
  | [_] => true
  | a :: b :: rest => !(a == ' ' && b == ' ') && noDoubleSpaceB (b :: rest)

/-! ### Facts about the modelled composition data -/

/-- Composition only fires with a table base on the left, a table mark on
the right, and produces a table precomposed character. -/
theorem compose_spec {a b e : Char} (h : compose a b = some e) :
    a ∈ decompTable.map (fun x => x.2.1) ∧
      b ∈ decompTable.map (fun x => x.2.2) ∧ e ∈ composedChars := by
  unfold compose at h
  cases hf : decompTable.find? (fun x => x.2.1 = a && x.2.2 = b) with
  | none => rw [hf] at h; simp at h
  | some x =>
    rw [hf] at h
    simp only [Option.map_some', Option.some_inj] at h
    have hx := List.mem_of_find?_eq_some hf
    have hp := List.find?_some hf
    simp only [Bool.and_eq_true, decide_eq_true_eq] at hp
    refine ⟨?_, ?_, ?_⟩
    · exact hp.1 ▸ List.mem_map_of_mem (fun x => x.2.1) hx
    · exact hp.2 ▸ List.mem_map_of_mem (fun x => x.2.2) hx
    · exact h ▸ List.mem_map_of_mem (fun x => x.1) hx

/-- A composed character never composes again on the left. -/
theorem compose_composed_left {e : Char} (he : e ∈ composedChars) (y : Char) :
    compose e y = none := by
  cases h : compose e y with
  | none => rfl
  | some z =>
    have hall : ∀ x ∈ composedChars, x ∉ decompTable.map (fun y => y.2.1) := by
      decide
    exact absurd (compose_spec h).1 (hall e he)

/-- A composed character never composes again on the right. -/
theorem compose_composed_right {e : Char} (he : e ∈ composedChars) (y : Char) :
    compose y e = none := by
  cases h : compose y e with
  | none => rfl
  | some z =>
    have hall : ∀ x ∈ composedChars, x ∉ decompTable.map (fun y => y.2.2) := by
      decide
    exact absurd (compose_spec h).2.1 (hall e he)

/-- Only characters of nonzero combining class compose on the right. -/
theorem compose_class_zero_right {b : Char} (hb : combiningClass b = 0)
    (y : Char) : compose y b = none := by
  cases h : compose y b with
  | none => rfl
  | some z =>
    have hall : ∀ x ∈ decompTable.map (fun y => y.2.2), combiningClass x ≠ 0 := by
      decide
    exact absurd hb (hall b (compose_spec h).2.1)

/-! ### Facts about the modelled NFC recomposition -/

theorem nfcCompose_head? (l : List Char) :
    (nfcCompose l).head? = l.head? ∨ ∃ e ∈ composedChars, (nfcCompose l).head? = some e := by
  match l with
  | [] => left; rfl
  | [c] => left; rfl
  | a :: b :: rest =>
    cases h : compose a b with
    | none => left; simp only [nfcCompose, h]; rfl
    | some e =>
      right
      exact ⟨e, (compose_spec h).2.2, by simp only [nfcCompose, h]; rfl⟩

theorem mem_nfcCompose {c : Char} : ∀ {l : List Char}, c ∈ nfcCompose l →
    c ∈ l ∨ c ∈ composedChars := by
  intro l
  induction l using nfcCompose.induct with
  | case1 => simp [nfcCompose]
  | case2 d => simp [nfcCompose]; tauto
  | case3 a b rest e he ih =>
    simp only [nfcCompose, he, List.mem_cons]
    rintro (rfl | h)
    · exact Or.inr (compose_spec he).2.2
    · rcases ih h with h' | h'
      · tauto
      · tauto
  | case4 a b rest he ih =>
    simp only [nfcCompose, he, List.mem_cons]
    rintro (rfl | h)
    · tauto
    · rcases ih h with h' | h'
      · simp only [List.mem_cons] at h'
        tauto
      · tauto

/-- `nfcCompose` preserves any chain relation that composed characters satisfy
against everything. -/
theorem nfcCompose_chain' {R : Char → Char → Prop}
    (hc : ∀ e ∈ composedChars, ∀ x, R e x ∧ R x e) :
    ∀ {l : List Char}, List.Chain' R l → List.Chain' R (nfcCompose l) := by
  intro l
  induction l using nfcCompose.induct with
  | case1 => simp [nfcCompose]
  | case2 d => simp [nfcCompose]
  | case3 a b rest e he ih =>
    intro h
    simp only [nfcCompose, he]
    rw [List.chain'_cons']
    refine ⟨fun y hy => (hc e (compose_spec he).2.2 y).1, ih h.tail.tail⟩
  | case4 a b rest he ih =>
    intro h
    simp only [nfcCompose, he]
    rw [List.chain'_cons']
    constructor
    · intro y hy
      rcases nfcCompose_head? (b :: rest) with heq | ⟨e', he', heq⟩
      · rw [heq] at hy
        simp only [List.head?_cons, Option.mem_def, Option.some_inj] at hy
        exact hy ▸ (List.chain'_cons.mp h).1
      · rw [heq] at hy
        simp only [Option.mem_def, Option.some_inj] at hy
        exact hy ▸ (hc e' he' a).2
    · exact ih h.tail

/-- The output of `nfcCompose` has no adjacent composable pair left. -/
theorem nfcCompose_nonComposable :
    ∀ l : List Char, List.Chain' (fun a b => compose a b = none) (nfcCompose l) := by
  intro l
  induction l using nfcCompose.induct with
  | case1 => simp [nfcCompose]
  | case2 d => simp [nfcCompose]
  | case3 a b rest e he ih =>
    simp only [nfcCompose, he]
    rw [List.chain'_cons']
    exact ⟨fun y _ => compose_composed_left (compose_spec he).2.2 y, ih⟩
  | case4 a b rest he ih =>
    simp only [nfcCompose, he]
    rw [List.chain'_cons']
    constructor
    · intro y hy
      rcases nfcCompose_head? (b :: rest) with heq | ⟨e', he', heq⟩
      · rw [heq] at hy
        simp only [List.head?_cons, Option.mem_def, Option.some_inj] at hy
        exact hy ▸ he
      · rw [heq] at hy
        simp only [Option.mem_def, Option.some_inj] at hy
        exact hy ▸ compose_composed_right he' a
    · exact ih

/-- `nfcCompose` fixes any string with no adjacent composable pair. -/
theorem nfcCompose_eq_self :
    ∀ {l : List Char}, List.Chain' (fun a b => compose a b = none) l →
      nfcCompose l = l := by
  intro l
  induction l using nfcCompose.induct with
  | case1 => simp [nfcCompose]
  | case2 d => simp [nfcCompose]
  | case3 a b rest e he ih =>
    intro h
    exact absurd he ((List.chain'_cons.mp h).1 ▸ by simp)
  | case4 a b rest he ih =>
    intro h
    simp only [nfcCompose, he]
    rw [ih h.tail]

/-! ### Facts about the singleton canonical mapping -/

theorem nfcChar_cases (c : Char) :
    nfcChar c = c ∨ nfcChar c ∈ singletonNFC.map (fun e => e.2) := by
  unfold nfcChar
  cases hf : singletonNFC.find? (fun e => e.1 = c) with
  | none => left; rfl
  | some e =>
    right
    simp only [Option.map_some', Option.getD_some]
    exact List.mem_map_of_mem _ (List.mem_of_find?_eq_some hf)

theorem nfcChar_space {c : Char} (h : nfcChar c = ' ') : c = ' ' := by
  rcases nfcChar_cases c with hid | hmem
  · rw [hid] at h
    exact h
  · rw [h] at hmem
    exact absurd hmem (by decide)

theorem nfcChar_not_digit {c : Char} (h : digitChars.contains c = false) :
    digitChars.contains (nfcChar c) = false := by
  rcases nfcChar_cases c with hid | hmem
  · rw [hid]
    exact h
  · have hall : ∀ x ∈ singletonNFC.map (fun e => e.2),
        digitChars.contains x = false := by decide
    exact hall _ hmem

theorem nfcChar_class_zero {c : Char} (h : combiningClass c = 0) :
    combiningClass (nfcChar c) = 0 := by
  rcases nfcChar_cases c with hid | hmem
  · rw [hid]
    exact h
  · have hall : ∀ x ∈ singletonNFC.map (fun e => e.2),
        combiningClass x = 0 := by decide
    exact hall _ hmem

/-! ### Facts about the unconditional space collapse -/

theorem collapseSpaces_head? :
    ∀ l : List Char, (collapseSpaces l).head? = l.head? := by
  intro l
  induction l using collapseSpaces.induct with
  | case1 => rfl
  | case2 c => rfl
  | case3 a b rest h ih =>
    simp only [collapseSpaces, if_pos h]
    rw [ih]
    simp [h.1, h.2]
  | case4 a b rest h ih =>
    simp only [collapseSpaces, if_neg h]
    rfl

theorem mem_collapseSpaces {c : Char} :
    ∀ {l : List Char}, c ∈ collapseSpaces l → c ∈ l := by
  intro l
  induction l using collapseSpaces.induct with
  | case1 => simp [collapseSpaces]
  | case2 d => simp [collapseSpaces]
  | case3 a b rest h ih =>
    simp only [collapseSpaces, if_pos h]
    intro hm
    exact List.mem_cons_of_mem _ (ih hm)
  | case4 a b rest h ih =>
    simp only [collapseSpaces, if_neg h]
    intro hm
    rcases List.mem_cons.mp hm with rfl | hm'
    · exact List.mem_cons_self _ _
    · exact List.mem_cons_of_mem _ (ih hm')

/-- After collapsing, no two ASCII spaces are adjacent. -/
theorem collapseSpaces_chain' :
    ∀ l : List Char,
      List.Chain' (fun a b => ¬(a = ' ' ∧ b = ' ')) (collapseSpaces l) := by
  intro l
  induction l using collapseSpaces.induct with
  | case1 => simp [collapseSpaces]
  | case2 c => simp [collapseSpaces]
  | case3 a b rest h ih =>
    simp only [collapseSpaces, if_pos h]
    exact ih
  | case4 a b rest h ih =>
    simp only [collapseSpaces, if_neg h]
    rw [List.chain'_cons']
    refine ⟨fun y hy => ?_, ih⟩
    rw [collapseSpaces_head?] at hy
    simp only [List.head?_cons, Option.mem_def, Option.some_inj] at hy
    subst hy
    exact h

/-- Collapsing fixes any string with no two adjacent ASCII spaces. -/
theorem collapseSpaces_eq_self :
    ∀ {l : List Char}, List.Chain' (fun a b => ¬(a = ' ' ∧ b = ' ')) l →
      collapseSpaces l = l := by
  intro l
  induction l using collapseSpaces.induct with
  | case1 => intro _; rfl
  | case2 c => intro _; rfl
  | case3 a b rest h ih =>
    intro hch
    exact absurd h (List.chain'_cons.mp hch).1
  | case4 a b rest h ih =>
    intro hch
    simp only [collapseSpaces, if_neg h]
    rw [ih hch.tail]

/-! ### Facts about `pyStrip` -/

/-- `dropTrail` only removes characters from the end. -/
theorem dropTrail_decomp (l : List Char) : ∃ t, dropTrail l ++ t = l := by
  obtain ⟨s, hs⟩ := List.dropWhile_suffix (l := l.reverse) pyIsSpace
  refine ⟨s.reverse, ?_⟩
  have h := congrArg List.reverse hs
  simpa [dropTrail, List.reverse_append] using h

theorem mem_dropTrail {c : Char} {l : List Char} (h : c ∈ dropTrail l) :
    c ∈ l := by
  obtain ⟨t, ht⟩ := dropTrail_decomp l
  rw [← ht]
  exact List.mem_append_left _ h

theorem dropTrail_getLast? {c : Char} {l : List Char}
    (h : (dropTrail l).getLast? = some c) : ¬pyIsSpace c := by
  rw [List.getLast?_eq_head?_reverse] at h
  unfold dropTrail at h
  rw [List.reverse_reverse] at h
  have := List.head?_dropWhile_not pyIsSpace l.reverse
  rw [h] at this
  simpa using this

theorem dropTrail_head? {l : List Char} (hne : dropTrail l ≠ []) :
    (dropTrail l).head? = l.head? := by
  obtain ⟨t, ht⟩ := dropTrail_decomp l
  match hm : dropTrail l with
  | [] => exact absurd hm hne
  | a :: r =>
    rw [hm] at ht
    rw [← ht]
    rfl

theorem dropTrail_chain' {R : Char → Char → Prop} {l : List Char}
    (h : List.Chain' R l) : List.Chain' R (dropTrail l) := by
  obtain ⟨t, ht⟩ := dropTrail_decomp l
  exact h.infix ⟨[], t, by simpa using ht⟩

theorem dropTrail_nil : dropTrail [] = [] := rfl

theorem pyStrip_head? {c : Char} {l : List Char}
    (h : (pyStrip l).head? = some c) : ¬pyIsSpace c := by
  unfold pyStrip at h
  have hne : dropTrail (l.dropWhile pyIsSpace) ≠ [] := by
    intro hnil
    rw [hnil] at h
    simp at h
  rw [dropTrail_head? hne] at h
  have := List.head?_dropWhile_not pyIsSpace l
  rw [h] at this
  simpa using this

theorem pyStrip_getLast? {c : Char} {l : List Char}
    (h : (pyStrip l).getLast? = some c) : ¬pyIsSpace c :=
  dropTrail_getLast? h

theorem mem_pyStrip {c : Char} {l : List Char} (h : c ∈ pyStrip l) : c ∈ l :=
  (List.dropWhile_sublist pyIsSpace).subset (mem_dropTrail h)

theorem pyStrip_chain' {R : Char → Char → Prop} {l : List Char}
    (h : List.Chain' R l) : List.Chain' R (pyStrip l) :=
  dropTrail_chain' (h.suffix (List.dropWhile_suffix pyIsSpace))

/-- Strings whose first character is not whitespace lose nothing in front. -/
theorem dropLead_eq_self {l : List Char}
    (h : ∀ c, l.head? = some c → ¬pyIsSpace c) :
    l.dropWhile pyIsSpace = l := by
  match l with
  | [] => rfl
  | c :: r =>
    have := h c rfl
    simp [List.dropWhile_cons, this]

/-- Strings whose last character is not whitespace lose nothing at the end. -/
theorem dropTrail_eq_self {l : List Char}
    (h : ∀ c, l.getLast? = some c → ¬pyIsSpace c) : dropTrail l = l := by
  unfold dropTrail
  have h' : ∀ c, l.reverse.head? = some c → ¬pyIsSpace c := by
    intro c hc
    rw [List.head?_reverse] at hc
    exact h c hc
  rw [dropLead_eq_self h', List.reverse_reverse]

theorem pyStrip_idem (l : List Char) : pyStrip (pyStrip l) = pyStrip l := by
  have h1 : (pyStrip l).dropWhile pyIsSpace = pyStrip l :=
    dropLead_eq_self (fun c hc => pyStrip_head? hc)
  show dropTrail ((pyStrip l).dropWhile pyIsSpace) = pyStrip l
  rw [h1]
  exact dropTrail_eq_self (fun c hc => pyStrip_getLast? hc)

theorem pyStrip_all_space {l : List Char} (h : ∀ c ∈ l, pyIsSpace c) :
    pyStrip l = [] := by
  unfold pyStrip
  rw [List.dropWhile_eq_nil_iff.mpr h]
  rfl

/-! ### Facts about character translation tables and maps -/

theorem mem_translateFill {tbl : Char → Bool} {fill l : List Char} {c : Char}
    (h : c ∈ translateFill tbl fill l) :
    c ∈ fill ∨ (c ∈ l ∧ tbl c = false) := by
  induction l with
  | nil => simp [translateFill] at h
  | cons a r ih =>
    unfold translateFill at h ih
    rw [List.flatMap_cons] at h
    rcases List.mem_append.mp h with h' | h'
    · by_cases ha : tbl a
      · rw [if_pos ha] at h'
        exact Or.inl h'
      · rw [if_neg ha] at h'
        rcases List.mem_singleton.mp h' with rfl
        exact Or.inr ⟨List.mem_cons_self _ _, by simpa using ha⟩
    · rcases ih h' with h'' | h''
      · exact Or.inl h''
      · exact Or.inr ⟨List.mem_cons_of_mem _ h''.1, h''.2⟩

theorem translateFill_eq_self {tbl : Char → Bool} {fill l : List Char}
    (h : ∀ c ∈ l, tbl c = false) : translateFill tbl fill l = l := by
  induction l with
  | nil => rfl
  | cons a r ih =>
    unfold translateFill at ih ⊢
    rw [List.flatMap_cons, if_neg (by simp [h a (List.mem_cons_self _ _)]),
      ih (fun c hc => h c (List.mem_cons_of_mem _ hc))]
    rfl

theorem translateFill_append (tbl : Char → Bool) (fill l₁ l₂ : List Char) :
    translateFill tbl fill (l₁ ++ l₂) =
      translateFill tbl fill l₁ ++ translateFill tbl fill l₂ := by
  unfold translateFill
  rw [List.flatMap_append]

theorem translateFill_singleton (tbl : Char → Bool) (fill : List Char)
    (c : Char) :
    translateFill tbl fill [c] = if tbl c then fill else [c] := by
  unfold translateFill
  rw [List.flatMap_cons, List.flatMap_nil, List.append_nil]

theorem map_eq_self_of_fixed {f : Char → Char} {l : List Char}
    (h : ∀ c ∈ l, f c = c) : l.map f = l := by
  induction l with
  | nil => rfl
  | cons a r ih =>
    rw [List.map_cons, h a (List.mem_cons_self _ _),
      ih (fun c hc => h c (List.mem_cons_of_mem _ hc))]

/-! ### Facts about the entity decoder -/

set_option maxHeartbeats 2000000 in
/-- Decoding a string that does not start with an ampersand keeps its
first character and proceeds with the rest. -/
theorem unescape_cons_ne {c : Char} (hc : ¬c = '&') (rest : List Char) :
    unescape (c :: rest) = c :: unescape rest := by
  conv_lhs => rw [unescape.eq_def]
  exact if_neg hc

/-- Text without an ampersand decodes to itself. -/
theorem unescape_eq_self : ∀ {l : List Char}, (∀ c ∈ l, ¬c = '&') →
    unescape l = l := by
  intro l
  induction l with
  | nil => intro _; rfl
  | cons c rest ih =>
    intro h
    rw [unescape_cons_ne (h c (List.mem_cons_self _ _)),
      ih (fun x hx => h x (List.mem_cons_of_mem _ hx))]

/-! ### Facts about the unhyphenation scan -/

theorem mem_stepUnhyphenate {c : Char} :
    ∀ {l : List Char}, c ∈ stepUnhyphenate l → c ∈ l := by
  intro l
  induction l using stepUnhyphenate.induct with
  | case1 => simp [stepUnhyphenate]
  | case2 a ha w r2 hw ih =>
    intro h
    have heq : stepUnhyphenate (a :: w :: '\n' :: r2) = stepUnhyphenate r2 := by
      rw [stepUnhyphenate.eq_2, if_pos ha, if_pos hw]
    rw [heq] at h
    exact List.mem_cons_of_mem _ (List.mem_cons_of_mem _
      (List.mem_cons_of_mem _ (ih h)))
  | case3 a ha w r2 hw ih =>
    intro h
    have heq : stepUnhyphenate (a :: w :: '\n' :: r2) =
        a :: stepUnhyphenate (w :: '\n' :: r2) := by
      rw [stepUnhyphenate.eq_2, if_pos ha, if_neg hw]
    rw [heq] at h
    rcases List.mem_cons.mp h with rfl | h'
    · exact List.mem_cons_self _ _
    · exact List.mem_cons_of_mem _ (ih h')
  | case4 a ha r2 hne ih =>
    intro h
    have heq : stepUnhyphenate (a :: '\n' :: r2) = stepUnhyphenate r2 := by
      rw [stepUnhyphenate.eq_3 _ _ hne, if_pos ha]
    rw [heq] at h
    exact List.mem_cons_of_mem _ (List.mem_cons_of_mem _ (ih h))
  | case5 a ha r hne1 hne2 ih =>
    intro h
    have heq : stepUnhyphenate (a :: r) = a :: stepUnhyphenate r := by
      rw [stepUnhyphenate.eq_4 _ _ hne1 hne2, if_pos ha]
    rw [heq] at h
    rcases List.mem_cons.mp h with rfl | h'
    · exact List.mem_cons_self _ _
    · exact List.mem_cons_of_mem _ (ih h')
  | case6 a rest ha ih =>
    intro h
    have heq : stepUnhyphenate (a :: rest) = a :: stepUnhyphenate rest := by
      rw [stepUnhyphenate.eq_def]
      dsimp only
      rw [if_neg ha]
    rw [heq] at h
    rcases List.mem_cons.mp h with rfl | h'
    · exact List.mem_cons_self _ _
    · exact List.mem_cons_of_mem _ (ih h')

/-! ### Facts about splitting and joining -/

theorem splitOnNl_ne_nil : ∀ l : List Char, splitOnNl l ≠ [] := by
  intro l
  induction l using splitOnNl.induct with
  | case1 => simp [splitOnNl.eq_1]
  | case2 rest ih => simp [splitOnNl.eq_2]
  | case3 c rest hc hnil ih => exact absurd hnil ih
  | case4 c rest hc s ss hss ih =>
    rw [splitOnNl.eq_3 _ _ hc, hss]
    simp

theorem joinSep_cons_head (sep : List Char) (c : Char) (s : List Char)
    (ss : List (List Char)) :
    joinSep sep ((c :: s) :: ss) = c :: joinSep sep (s :: ss) := by
  cases ss with
  | nil => rfl
  | cons s2 ss2 => simp [joinSep, List.cons_append]

/-- The line-joining step is exactly newline-to-space substitution. -/
theorem stepRemoveLines_eq_map (t : List Char) :
    stepRemoveLines t = t.map (fun c => if c = '\n' then ' ' else c) := by
  unfold stepRemoveLines
  induction t using splitOnNl.induct with
  | case1 => rfl
  | case2 rest ih =>
    rw [splitOnNl.eq_2]
    obtain ⟨s, ss, hss⟩ : ∃ s ss, splitOnNl rest = s :: ss := by
      cases hs : splitOnNl rest with
      | nil => exact absurd hs (splitOnNl_ne_nil rest)
      | cons s ss => exact ⟨s, ss, rfl⟩
    rw [hss] at ih ⊢
    have hj : joinSep [' '] ([] :: s :: ss) = ' ' :: joinSep [' '] (s :: ss) := by
      simp [joinSep]
    rw [hj, ih, List.map_cons, if_pos rfl]
  | case3 c rest hc hnil ih => exact absurd hnil (splitOnNl_ne_nil rest)
  | case4 c rest hc s ss hss ih =>
    rw [splitOnNl.eq_3 _ _ hc, hss]
    rw [hss] at ih
    rw [joinSep_cons_head, ih, List.map_cons, if_neg hc]

theorem pySplitWs_all_space : ∀ {l : List Char}, (∀ c ∈ l, pyIsSpace c) →
    pySplitWs l = [] := by
  intro l
  induction l using pySplitWs.induct with
  | case1 => intro _; rfl
  | case2 c hc => intro _; simp [pySplitWs, hc]
  | case3 c hc => intro h; exact absurd (h c (List.mem_cons_self _ _)) hc
  | case4 a b rest ha ih =>
    intro h
    simp only [pySplitWs, if_pos ha]
    exact ih (fun x hx => h x (List.mem_cons_of_mem _ hx))
  | case5 a b rest ha hb ih =>
    intro h
    exact absurd (h a (List.mem_cons_self _ _)) ha
  | case6 a b rest ha hnil hb ih =>
    intro h
    exact absurd (h a (List.mem_cons_self _ _)) ha
  | case7 a b rest ha g gs hgs hb ih =>
    intro h
    exact absurd (h a (List.mem_cons_self _ _)) ha

/-! ### Facts about case folding and the spelling replacer -/

theorem pylower_idem (c : Char) : pylower (pylower c) = pylower c := by
  have h : ∀ e ∈ lowerTable, pylower e.2 = e.2 := by decide
  cases hf : lowerTable.find? (fun e => e.1 = c) with
  | none =>
    have hc : pylower c = c := by simp [pylower, hf]
    rw [hc, hc]
  | some e =>
    have hc : pylower c = e.2 := by simp [pylower, hf]
    rw [hc]
    exact h e (List.mem_of_find?_eq_some hf)

theorem jv_eq_self {c : Char} (h1 : ¬c = 'j') (h2 : ¬c = 'v') (h3 : ¬c = 'J')
    (h4 : ¬c = 'V') : jv c = c := by
  simp [jv, h1, h2, h3, h4]

theorem jv_idem (c : Char) : jv (jv c) = jv c := by
  by_cases h1 : c = 'j'
  · subst h1; decide
  by_cases h2 : c = 'v'
  · subst h2; decide
  by_cases h3 : c = 'J'
  · subst h3; decide
  by_cases h4 : c = 'V'
  · subst h4; decide
  rw [jv_eq_self h1 h2 h3 h4, jv_eq_self h1 h2 h3 h4]

/-- The spelling replacer preserves fixpoints of case folding. -/
theorem pylower_fixed_jv {c : Char} (h : pylower c = c) :
    pylower (jv c) = jv c := by
  by_cases h1 : c = 'j'
  · subst h1; decide
  by_cases h2 : c = 'v'
  · subst h2; decide
  by_cases h3 : c = 'J'
  · subst h3; exact absurd h (by decide)
  by_cases h4 : c = 'V'
  · subst h4; exact absurd h (by decide)
  rw [jv_eq_self h1 h2 h3 h4]
  exact h

theorem pylower_jv_lower_fixed (c : Char) :
    pylower (jv (pylower c)) = jv (pylower c) :=
  pylower_fixed_jv (pylower_idem c)

theorem jv_jv_lower_fixed (c : Char) : jv (jv (pylower c)) = jv (pylower c) :=
  jv_idem (pylower c)

/-! ### Structure of the pipeline -/

theorem preprocess_parts (t : List Char) (o : Opts) :
    preprocess t o = pyStrip (nfc (collapseSpaces (preCore t o))) := rfl

theorem preprocess_default_eq (l : List Char) :
    preprocess l defaultOpts =
      pyStrip (nfc (collapseSpaces
        (translateFill (fun c => digitChars.contains c) [' ']
          (translateFill (fun c => pmChars.contains c) [' ']
            (((unescape l).map pylower).map jv))))) := rfl

/-! ### Clean characters: fixpoints of every default pass -/

theorem cleanChar_iff {c : Char} :
    cleanChar c = true ↔
      pylower c = c ∧ jv c = c ∧ nfcChar c = c ∧
        pmChars.contains c = false ∧ digitChars.contains c = false := by
  simp only [cleanChar, Bool.and_eq_true, beq_iff_eq, Bool.not_eq_true']
  tauto

/-! ### Chain and boundary invariants of every pipeline output -/

theorem preprocess_chain_noDouble (t : List Char) (o : Opts) :
    List.Chain' (fun a b => ¬(a = ' ' ∧ b = ' ')) (preprocess t o) := by
  rw [preprocess_parts]
  have hne : ∀ e ∈ composedChars, ¬e = ' ' := by decide
  refine pyStrip_chain' ?_
  show List.Chain' _ (nfcCompose ((collapseSpaces (preCore t o)).map nfcChar))
  refine nfcCompose_chain'
    (fun e he x =>
      ⟨fun hp => absurd hp.1 (hne e he), fun hp => absurd hp.2 (hne e he)⟩) ?_
  rw [List.chain'_map]
  exact (collapseSpaces_chain' (preCore t o)).imp
    (fun a b hab hp => hab ⟨nfcChar_space hp.1, nfcChar_space hp.2⟩)

theorem preprocess_chain_nonComposable (t : List Char) (o : Opts) :
    List.Chain' (fun a b => compose a b = none) (preprocess t o) := by
  rw [preprocess_parts]
  refine pyStrip_chain' ?_
  show List.Chain' _ (nfcCompose ((collapseSpaces (preCore t o)).map nfcChar))
  exact nfcCompose_nonComposable _

theorem noDoubleSpaceB_of_chain' :
    ∀ {l : List Char}, List.Chain' (fun a b => ¬(a = ' ' ∧ b = ' ')) l →
      noDoubleSpaceB l = true := by
  intro l
  match l with
  | [] => intro _; rfl
  | [c] => intro _; rfl
  | a :: b :: rest =>
    intro h
    have h1 := (List.chain'_cons.mp h).1
    have h2 := noDoubleSpaceB_of_chain' (List.chain'_cons.mp h).2
    unfold noDoubleSpaceB
    rw [h2]
    have : (a == ' ' && b == ' ') = false := by
      by_cases ha : a = ' '
      · by_cases hb : b = ' '
        · exact absurd ⟨ha, hb⟩ h1
        · simp [hb]
      · simp [ha]
    rw [this]
    rfl

/-- No ASCII digit survives the default pipeline: the digit pass removes
them, and the later collapse, singleton mapping, composition and trim
steps cannot create one. -/
theorem preprocess_default_no_digit (t : List Char) :
    ∀ c ∈ preprocess t defaultOpts, digitChars.contains c = false := by
  intro c hc
  rw [preprocess_default_eq] at hc
  unfold nfc at hc
  rcases mem_nfcCompose (mem_pyStrip hc) with h2 | h2
  · obtain ⟨a, ha, rfl⟩ := List.mem_map.mp h2
    rcases mem_translateFill (mem_collapseSpaces ha) with hf | ⟨_, hdig⟩
    · rcases List.mem_singleton.mp hf with rfl
      decide
    · exact nfcChar_not_digit hdig
  · have hall : ∀ e ∈ composedChars, digitChars.contains e = false := by
      decide
    exact hall c h2

/-! ### Idempotence of the default pipeline -/

theorem cleanChar_ne_amp {c : Char} (h : cleanChar c = true) : ¬c = '&' := by
  intro heq
  rw [heq] at h
  exact absurd h (by decide)

/-- Core of conditional idempotence: a second default pass fixes any
first-pass output all of whose characters are clean.  (Unconditional
idempotence is false: an NFC singleton image such as `·` can survive the
first pass and be stripped by the second.) -/
theorem preprocess_default_idem (t : List Char)
    (hclean : ∀ c ∈ preprocess t defaultOpts, cleanChar c = true) :
    preprocess (preprocess t defaultOpts) defaultOpts =
      preprocess t defaultOpts := by
  have h1 : unescape (preprocess t defaultOpts) = preprocess t defaultOpts :=
    unescape_eq_self (fun c hc => cleanChar_ne_amp (hclean c hc))
  have h2 : (preprocess t defaultOpts).map pylower = preprocess t defaultOpts :=
    map_eq_self_of_fixed (fun c hc => (cleanChar_iff.mp (hclean c hc)).1)
  have h3 : (preprocess t defaultOpts).map jv = preprocess t defaultOpts :=
    map_eq_self_of_fixed (fun c hc => (cleanChar_iff.mp (hclean c hc)).2.1)
  have h4 : translateFill (fun c => pmChars.contains c) [' ']
      (preprocess t defaultOpts) = preprocess t defaultOpts :=
    translateFill_eq_self
      (fun c hc => (cleanChar_iff.mp (hclean c hc)).2.2.2.1)
  have h5 : translateFill (fun c => digitChars.contains c) [' ']
      (preprocess t defaultOpts) = preprocess t defaultOpts :=
    translateFill_eq_self
      (fun c hc => (cleanChar_iff.mp (hclean c hc)).2.2.2.2)
  have h6 : collapseSpaces (preprocess t defaultOpts) =
      preprocess t defaultOpts :=
    collapseSpaces_eq_self (preprocess_chain_noDouble t defaultOpts)
  have h7 : nfc (preprocess t defaultOpts) = preprocess t defaultOpts := by
    show nfcCompose ((preprocess t defaultOpts).map nfcChar) =
      preprocess t defaultOpts
    rw [map_eq_self_of_fixed
      (fun c hc => (cleanChar_iff.mp (hclean c hc)).2.2.1)]
    exact nfcCompose_eq_self (preprocess_chain_nonComposable t defaultOpts)
  have h8 : pyStrip (preprocess t defaultOpts) = preprocess t defaultOpts := by
    rw [preprocess_parts]
    exact pyStrip_idem _
  rw [preprocess_default_eq (preprocess t defaultOpts)]
  rw [h1, h2, h3, h4, h5, h6, h7, h8]

/-! ### Whitespace-only inputs -/

theorem pyIsSpace_cases {c : Char} (h : pyIsSpace c = true) :
    c = ' ' ∨ c = '\t' ∨ c = '\n' ∨ c = '\r' ∨ c = '\x0b' ∨ c = '\x0c' := by
  simp only [pyIsSpace, Bool.or_eq_true, decide_eq_true_eq] at h
  tauto

theorem ws_pylower {c : Char} (h : pyIsSpace c = true) : pylower c = c := by
  rcases pyIsSpace_cases h with rfl | rfl | rfl | rfl | rfl | rfl <;> decide

theorem ws_jv {c : Char} (h : pyIsSpace c = true) : jv c = c := by
  rcases pyIsSpace_cases h with rfl | rfl | rfl | rfl | rfl | rfl <;> decide

theorem ws_not_pm {c : Char} (h : pyIsSpace c = true) :
    pmChars.contains c = false := by
  rcases pyIsSpace_cases h with rfl | rfl | rfl | rfl | rfl | rfl <;> decide

theorem ws_not_digit {c : Char} (h : pyIsSpace c = true) :
    digitChars.contains c = false := by
  rcases pyIsSpace_cases h with rfl | rfl | rfl | rfl | rfl | rfl <;> decide

theorem ws_ne_amp {c : Char} (h : pyIsSpace c = true) : ¬c = '&' := by
  rcases pyIsSpace_cases h with rfl | rfl | rfl | rfl | rfl | rfl <;> decide

theorem ws_class_zero {c : Char} (h : pyIsSpace c = true) :
    combiningClass c = 0 := by
  rcases pyIsSpace_cases h with rfl | rfl | rfl | rfl | rfl | rfl <;> decide

theorem ws_nfdChar {c : Char} (h : pyIsSpace c = true) : nfdChar c = [c] := by
  rcases pyIsSpace_cases h with rfl | rfl | rfl | rfl | rfl | rfl <;> decide

theorem ws_nfcChar {c : Char} (h : pyIsSpace c = true) : nfcChar c = c := by
  rcases pyIsSpace_cases h with rfl | rfl | rfl | rfl | rfl | rfl <;> decide

theorem chain_nonComposable_of_space {l : List Char}
    (h : ∀ c ∈ l, pyIsSpace c) :
    List.Chain' (fun a b => compose a b = none) l := by
  induction l with
  | nil => simp
  | cons a r ih =>
    rw [List.chain'_cons']
    refine ⟨fun y hy => ?_,
      ih (fun c hc => h c (List.mem_cons_of_mem _ hc))⟩
    have hyws : pyIsSpace y = true := by
      cases r with
      | nil => simp at hy
      | cons b rr =>
        simp only [List.head?_cons, Option.mem_def, Option.some_inj] at hy
        exact hy ▸ h b (List.mem_cons_of_mem _ (List.mem_cons_self _ _))
    exact compose_class_zero_right (ws_class_zero hyws) a

theorem preCore_all_space {t : List Char} (o : Opts)
    (h : ∀ c ∈ t, pyIsSpace c) : ∀ c ∈ preCore t o, pyIsSpace c = true := by
  have h1 : ∀ c ∈ (if o.entities then t else unescape t), pyIsSpace c = true := by
    by_cases he : o.entities
    · rw [if_pos he]; exact h
    · rw [if_neg he, unescape_eq_self (fun c hc => ws_ne_amp (h c hc))]
      exact h
  set s1 := if o.entities then t else unescape t with hs1
  have h2 : ∀ c ∈ (if o.unhyphenate then stepUnhyphenate s1 else s1),
      pyIsSpace c = true := by
    by_cases hu : o.unhyphenate
    · rw [if_pos hu]
      exact fun c hc => h1 c (mem_stepUnhyphenate hc)
    · rw [if_neg hu]; exact h1
  set s2 := if o.unhyphenate then stepUnhyphenate s1 else s1 with hs2
  have h3 : ∀ c ∈ (if o.lower then s2.map pylower else s2),
      pyIsSpace c = true := by
    by_cases hl : o.lower
    · rw [if_pos hl]
      intro c hc
      obtain ⟨a, ha, rfl⟩ := List.mem_map.mp hc
      rw [ws_pylower (h2 a ha)]
      exact h2 a ha
    · rw [if_neg hl]; exact h2
  set s3 := if o.lower then s2.map pylower else s2 with hs3
  have h4 : ∀ c ∈ (if o.normalize then s3.map jv else s3),
      pyIsSpace c = true := by
    by_cases hn : o.normalize
    · rw [if_pos hn]
      intro c hc
      obtain ⟨a, ha, rfl⟩ := List.mem_map.mp hc
      rw [ws_jv (h3 a ha)]
      exact h3 a ha
    · rw [if_neg hn]; exact h3
  set s4 := if o.normalize then s3.map jv else s3 with hs4
  have h5 : ∀ c ∈ (if o.punctuation then s4
      else translateFill (fun c => pmChars.contains c) o.fill s4),
      pyIsSpace c = true := by
    by_cases hp : o.punctuation
    · rw [if_pos hp]; exact h4
    · rw [if_neg hp, translateFill_eq_self (fun c hc => ws_not_pm (h4 c hc))]
      exact h4
  set s5 := if o.punctuation then s4
      else translateFill (fun c => pmChars.contains c) o.fill s4 with hs5
  have h6 : ∀ c ∈ (if o.numbers then s5
      else translateFill (fun c => digitChars.contains c) o.fill s5),
      pyIsSpace c = true := by
    by_cases hn : o.numbers
    · rw [if_pos hn]; exact h5
    · rw [if_neg hn,
        translateFill_eq_self (fun c hc => ws_not_digit (h5 c hc))]
      exact h5
  set s6 := if o.numbers then s5
      else translateFill (fun c => digitChars.contains c) o.fill s5 with hs6
  have h7 : ∀ c ∈ (if o.remove_lines then stepRemoveLines s6 else s6),
      pyIsSpace c = true := by
    by_cases hr : o.remove_lines
    · rw [if_pos hr, stepRemoveLines_eq_map]
      intro c hc
      obtain ⟨a, ha, rfl⟩ := List.mem_map.mp hc
      by_cases hna : a = '\n'
      · rw [if_pos hna]; rfl
      · rw [if_neg hna]; exact h6 a ha
    · rw [if_neg hr]; exact h6
  set s7 := if o.remove_lines then stepRemoveLines s6 else s6 with hs7
  have h8 : ∀ c ∈ (if o.remove_spaces then joinSep o.fill (pySplitWs s7)
      else s7), pyIsSpace c = true := by
    by_cases hr : o.remove_spaces
    · rw [if_pos hr, pySplitWs_all_space h7]
      intro c hc
      simp [joinSep] at hc
    · rw [if_neg hr]; exact h7
  set s8 := if o.remove_spaces then joinSep o.fill (pySplitWs s7) else s7
    with hs8
  have h9 : ∀ c ∈ (if o.diacriticals then s8 else remove_diacriticals s8),
      pyIsSpace c = true := by
    by_cases hd : o.diacriticals
    · rw [if_pos hd]; exact h8
    · rw [if_neg hd]
      intro c hc
      unfold remove_diacriticals translateDelete at hc
      have hc' := List.mem_of_mem_filter hc
      unfold nfd at hc'
      obtain ⟨a, ha, hmem⟩ := List.mem_flatMap.mp hc'
      rw [ws_nfdChar (h8 a ha)] at hmem
      rcases List.mem_singleton.mp hmem with rfl
      exact h8 _ ha
  intro c hc
  unfold preCore at hc
  exact h9 c hc

/-- A whitespace-only input normalizes to the empty string, whatever the
options. -/
theorem preprocess_all_space (t : List Char) (o : Opts)
    (h : ∀ c ∈ t, pyIsSpace c) : preprocess t o = [] := by
  rw [preprocess_parts]
  have hcoll : ∀ c ∈ collapseSpaces (preCore t o), pyIsSpace c = true :=
    fun c hc => preCore_all_space o h c (mem_collapseSpaces hc)
  show pyStrip (nfcCompose ((collapseSpaces (preCore t o)).map nfcChar)) = []
  rw [map_eq_self_of_fixed (fun c hc => ws_nfcChar (hcoll c hc))]
  rw [nfcCompose_eq_self (chain_nonComposable_of_space hcoll)]
  exact pyStrip_all_space hcoll

/-! ### The claims -/

/-- Claim C1: for every input string and every options record,
`preprocess` equals the left-to-right composition of the twelve
conditionally applied spec steps in the spec's fixed order (entity decode,
unhyphenate, lowercase, spelling normalize, punctuation strip, number
strip, line-join, space-join, diacritic strip, whitespace collapse, NFC
recompose, trim).  Each step is a pure function of the string given the
options record, so no step can change the options. -/
theorem c1_pipeline_fixed_order (t : List Char) (o : Opts) :
    preprocess t o = (specPipeline o).foldl (fun s f => f s) t := rfl

/-- Claim C2: `remove_diacriticals` is NFD decomposition followed by
deletion of every combining mark (the spec's glossary sense: nonzero
canonical combining class), so its output carries only class-0 base
characters. -/
theorem c2_remove_diacriticals_spec (t : List Char) :
    remove_diacriticals t = specStripDiacritics t ∧
      (remove_diacriticals t).all (fun c => combiningClass c == 0) = true := by
  constructor
  · rfl
  · rw [List.all_eq_true]
    intro c hc
    unfold remove_diacriticals translateDelete at hc
    have := (List.mem_filter.mp hc).2
    simp only [Bool.not_eq_true', combiningTable, bne_eq_false_iff_eq] at this
    simp [this]

/-- Claim C3, counterexample: with `entities := false` and the remaining
options at their defaults, `preprocess "foo&amp;bar"` is NOT `"foo&bar"`:
the default pipeline also strips punctuation, so the decoded `&` is
replaced by the fill and the result is `"foo bar"`. -/
theorem c3_counterexample :
    preprocess "foo&amp;bar".toList defaultOpts ≠ "foo&bar".toList := by
  decide

/-- Claim C3, amended: `&amp;` is decoded into a literal `&` by the
entity step, before the punctuation-stripping step runs; with punctuation
kept the final result is `"foo&bar"`, while under the default options the
decoded `&` is subsequently stripped and the result is `"foo bar"`. -/
theorem c3_amended :
    stepEntity defaultOpts "foo&amp;bar".toList = "foo&bar".toList ∧
      preprocess "foo&amp;bar".toList { defaultOpts with punctuation := true } =
        "foo&bar".toList ∧
      preprocess "foo&amp;bar".toList defaultOpts = "foo bar".toList := by
  refine ⟨by decide, by decide, by decide⟩

/-- Claim C4, counterexample: `preprocess` is not idempotent for every
options record whose fill avoids the targeted characters: with
`punctuation := true` (and the default `fill = " "`), the first pass over
`"&amp;amp;"` decodes one layer to `"&amp;"`, and the second pass decodes
again to `"&"`. -/
theorem c4_counterexample :
    preprocess
        (preprocess "&amp;amp;".toList { defaultOpts with punctuation := true })
        { defaultOpts with punctuation := true } ≠
      preprocess "&amp;amp;".toList { defaultOpts with punctuation := true } := by
  decide

/-- Claim C4, amended: `preprocess` at the default options is idempotent
on every input whose first-pass output consists of characters that every
pass fixes (fixed by case folding, the spelling replacer and the NFC
singleton mapping, and outside the punctuation, misc and digit tables —
in particular no ampersand, which the entity pass could re-decode).
Idempotence fails on other inputs even under the default options:
U+0387 GREEK ANO TELEIA is in no strip table, but the final NFC pass
maps it to U+00B7 MIDDLE DOT, which IS in the misc table; the first pass
therefore returns U+00B7 and the second pass strips that to the empty
string. -/
theorem c4_amended_idempotent :
    (∀ t : List Char,
        (∀ c ∈ preprocess t defaultOpts, cleanChar c = true) →
          preprocess (preprocess t defaultOpts) defaultOpts =
            preprocess t defaultOpts) ∧
      preprocess (preprocess ['\u0387'] defaultOpts) defaultOpts ≠
        preprocess ['\u0387'] defaultOpts :=
  ⟨preprocess_default_idem, by decide⟩

/-- Witness for the amended C4 at a concrete input whose normalized form
is clean, with the hypothesis discharged by evaluation. -/
theorem c4_amended_idempotent_witness :
    (∀ c ∈ preprocess "Hello, World! 123".toList defaultOpts,
        cleanChar c = true) ∧
      preprocess (preprocess "Hello, World! 123".toList defaultOpts)
          defaultOpts =
        preprocess "Hello, World! 123".toList defaultOpts :=
  ⟨by decide, c4_amended_idempotent.1 "Hello, World! 123".toList (by decide)⟩

/-- Claim C5: with `numbers := false` and the remaining options at their
defaults (which `defaultOpts` is), the output contains no ASCII digit,
and the number-removal step is exactly the characterwise substitution of
`fill` for each of the ten digits. -/
theorem c5_no_digits :
    (∀ t : List Char,
        (preprocess t defaultOpts).all
          (fun c => !(digitChars.contains c)) = true) ∧
      (∀ fill l₁ l₂ : List Char,
        translateFill (fun c => digitChars.contains c) fill (l₁ ++ l₂) =
          translateFill (fun c => digitChars.contains c) fill l₁ ++
            translateFill (fun c => digitChars.contains c) fill l₂) ∧
      ∀ (fill : List Char) (c : Char),
        translateFill (fun c => digitChars.contains c) fill [c] =
          if digitChars.contains c then fill else [c] := by
  refine ⟨fun t => ?_, fun fill l₁ l₂ => translateFill_append _ _ _ _,
    fun fill c => translateFill_singleton _ _ _⟩
  rw [List.all_eq_true]
  intro c hc
  simp only [preprocess_default_no_digit t c hc, Bool.not_false]

/-- Claim C6: with `diacriticals := false` and the remaining options at
their defaults, the final output (after the NFC pass) contains no
combining mark: every character has canonical combining class 0. -/
theorem c6_no_combining_marks (t : List Char) :
    (preprocess t { defaultOpts with diacriticals := false }).all
      (fun c => combiningClass c == 0) = true := by
  have heq : preprocess t { defaultOpts with diacriticals := false } =
      pyStrip (nfc (collapseSpaces (remove_diacriticals
        (translateFill (fun c => digitChars.contains c) [' ']
          (translateFill (fun c => pmChars.contains c) [' ']
            (((unescape t).map pylower).map jv)))))) := rfl
  rw [heq, List.all_eq_true]
  unfold nfc
  intro c hc
  rcases mem_nfcCompose (mem_pyStrip hc) with h2 | h2
  · obtain ⟨a, ha, rfl⟩ := List.mem_map.mp h2
    have h3 := mem_collapseSpaces ha
    unfold remove_diacriticals translateDelete at h3
    have ha0 := (List.mem_filter.mp h3).2
    simp only [Bool.not_eq_true', combiningTable, bne_eq_false_iff_eq] at ha0
    simp [nfcChar_class_zero ha0]
  · have hall : ∀ e ∈ composedChars, combiningClass e = 0 := by decide
    simp [hall c h2]

/-- Claim C7: the line-joining step always rejoins with a single literal
space, never with `fill` (it is exactly newline-to-space substitution),
whereas the space-joining step rejoins the whitespace-split segments with
`fill`: on `"a\nb"` with `fill = "_"`, `remove_lines` yields `"a b"` but
`remove_spaces` yields `"a_b"`. -/
theorem c7_line_join_literal_space :
    (∀ t : List Char,
        stepRemoveLines t = t.map (fun c => if c = '\n' then ' ' else c)) ∧
      (∀ (o : Opts) (t : List Char),
        stepSpaces o t =
          if o.remove_spaces then joinSep o.fill (pySplitWs t) else t) ∧
      preprocess "a\nb".toList
          { defaultOpts with remove_lines := true, fill := "_".toList } =
        "a b".toList ∧
      preprocess "a\nb".toList
          { defaultOpts with remove_spaces := true, fill := "_".toList } =
        "a_b".toList :=
  ⟨stepRemoveLines_eq_map, fun _ _ => rfl, by decide, by decide⟩

/-- Claim C8: `preprocess` is total — in this embedding it is a total
computable function built from total steps, so for every Unicode string
and every options record it returns a (unique, deterministic) string; the
source has no failure branch to model. -/
theorem c8_total (t : List Char) (o : Opts) :
    ∃ r : List Char, preprocess t o = r ∧
      r = pyStrip (nfc (collapseSpaces (preCore t o))) :=
  ⟨_, rfl, rfl⟩

/-- Claim C9: for every input and every options record, the output has no
two adjacent ASCII spaces and neither leading nor trailing whitespace,
because the unconditional collapse, NFC and trim steps run last. -/
theorem c9_output_clean (t : List Char) (o : Opts) :
    noDoubleSpaceB (preprocess t o) = true ∧
      (preprocess t o).head?.all (fun c => !pyIsSpace c) = true ∧
      (preprocess t o).getLast?.all (fun c => !pyIsSpace c) = true := by
  refine ⟨noDoubleSpaceB_of_chain' (preprocess_chain_noDouble t o), ?_, ?_⟩
  · cases hh : (preprocess t o).head? with
    | none => rfl
    | some c =>
      have hws : ¬pyIsSpace c = true :=
        pyStrip_head? (by rw [preprocess_parts] at hh; exact hh)
      simp [Option.all, hws]
  · cases hh : (preprocess t o).getLast? with
    | none => rfl
    | some c =>
      have hws : ¬pyIsSpace c = true :=
        pyStrip_getLast? (by rw [preprocess_parts] at hh; exact hh)
      simp [Option.all, hws]

/-- Claim C10: an input that is empty or consists only of whitespace
characters normalizes to the empty string under every options record. -/
theorem c10_whitespace_empty (t : List Char) (o : Opts)
    (h : t.all pyIsSpace = true) : preprocess t o = [] :=
  preprocess_all_space t o (List.all_eq_true.mp h)

/-- Witness for C10 at the concrete whitespace input `"  \t "` and the
default options. -/
theorem c10_whitespace_empty_witness :
    ("  \t ".toList.all pyIsSpace = true) ∧
      preprocess "  \t ".toList defaultOpts = [] :=
  ⟨by decide, c10_whitespace_empty "  \t ".toList defaultOpts (by decide)⟩

end EpTools
